import Mathlib

/-
Verification development for the sampling core of `TL_functions.py`
(weecology/TL).  The Python source is shallowly embedded: pure list
manipulation becomes Lean functions on `List ℤ` / `List ℕ`, the random
draws of `np.random.randint` are passed in explicitly as lists of
natural numbers, the process-wide SIGALRM timer is modelled by an
explicit oracle saying at which loop iteration (if any) the alarm
delivers, and `sys.exit` / exceptions become `Except` / `Option`
results.  Real-valued variance is computed exactly over `ℚ`; the
quantities the claims discuss (lengths, exact zero for constant lists)
agree with IEEE float evaluation on those inputs.
-/

namespace TL

/-- Embeds `Q_MIN = 5` (TL_functions.py line 19): minimal Q for a (Q, N)
combo to be included. -/
def Q_MIN : ℤ := 5

/-- Embeds `N_MIN = 3` (line 20): minimal N for a (Q, N) combo to be
included. -/
def N_MIN : ℤ := 3

/-- Embeds `n_MIN = 5` (line 21): minimal number of valid points in a
study to be included. -/
def n_MIN : ℕ := 5

/-- Embeds `np.var(xs, ddof = 1)` (used at line 113) computed exactly
over `ℚ`: the sum of squared deviations from the mean divided by
`len(xs) - 1`.  (For the inputs of interest all the float operations are
exact, so the rational value coincides with NumPy's.) -/
def np_var_ddof1 (xs : List ℤ) : ℚ :=
  let n : ℚ := xs.length
  let m : ℚ := (xs.sum : ℚ) / n
  (xs.map (fun x : ℤ => ((x : ℚ) - m) ^ 2)).sum / (n - 1)

/-- Embeds `RandomComposition_weak(q, n)` (lines 79-82).  The call
`np.random.randint(0, q, n - 1)` draws `n - 1` integers uniformly from
`{0, ..., q-1}` WITH replacement; that random vector is the explicit
argument `rnd` here (so `rnd.length = n - 1` and every entry is `< q`
for a faithful run).  The code sorts them ascending and returns the
list `[(indices + [q])[i] - ([0] + indices)[i] for i in range(len(indices)+1)]`,
i.e. the successive differences below. -/
def RandomComposition_weak (q : ℕ) (rnd : List ℕ) : List ℤ :=
  let indices : List ℤ := (rnd.insertionSort (· ≤ ·)).map (fun x : ℕ => (x : ℤ))
  List.zipWith (· - ·) (indices ++ [(q : ℤ)]) ((0 : ℤ) :: indices)

/-- Embeds one iteration of the `while` loop of `rand_compositions`
(lines 86-95): draw a composition, run the internal-consistency check
(`len(comp) != n or sum(comp) != q` prints an error and calls
`sys.exit()`, modelled as `.error ()`), then `comp.sort()` followed by
`comp.reverse()` (sort descending). -/
def rand_compositions_one (q n : ℕ) (rnd : List ℕ) : Except Unit (List ℤ) :=
  let comp := RandomComposition_weak q rnd
  if comp.length ≠ n ∨ comp.sum ≠ (q : ℤ) then .error ()
  else .ok ((comp.insertionSort (· ≤ ·)).reverse)

/-- The `while len(comps) < sample_size` loop of `rand_compositions`
(lines 85-95): every iteration appends exactly one composition (there is
no rejection path), so the loop body runs exactly `sample_size` times;
iteration `i` consumes the random vector `rnds i`. -/
def rand_comp_loop (q n : ℕ) (rnds : ℕ → List ℕ) : ℕ → Except Unit (List (List ℤ))
  | 0 => .ok []
  | k + 1 =>
    match rand_comp_loop q n rnds k with
    | .error e => .error e
    | .ok comps =>
      match rand_compositions_one q n (rnds k) with
      | .error e => .error e
      | .ok c => .ok (comps ++ [c])

/-- Embeds `rand_compositions(q, n, sample_size, zeros)` (lines 84-98):
run the collection loop, then deduplicate via
`[list(x) for x in set(tuple(x) for x in comps)]` (a set-based filter;
Python's set iteration order is arbitrary, so only the set of members is
meaningful — here modelled by `List.dedup`). -/
def rand_compositions (q n sample_size : ℕ) (rnds : ℕ → List ℕ) :
    Except Unit (List (List ℤ)) :=
  (rand_comp_loop q n rnds sample_size).map List.dedup

/-- Successive differences of adjacent entries of a list. -/
def succDiffs : List ℤ → List ℤ
  | a :: b :: rest => (b - a) :: succDiffs (b :: rest)
  | _ => []

/-- Modelled from the spec: "sort them ascending, then the N parts are
the successive gaps between consecutive cut points, including 0 and Q as
virtual boundaries" — the spec-side description of the composition built
from the cut points, for comparison with `RandomComposition_weak`. -/
def gapsSpec (q : ℕ) (cuts : List ℕ) : List ℤ :=
  succDiffs ((0 : ℤ) :: (cuts.insertionSort (· ≤ ·)).map (fun x : ℕ => (x : ℤ)) ++ [(q : ℤ)])

/-- How many iterations of the `for Niter in range(sample_size)` loop
(lines 109-113) complete their append, given the iteration at which the
SIGALRM exception is delivered (`none` = the alarm never fires while the
loop runs). -/
def completedIters (sample_size : ℕ) : Option ℕ → ℕ
  | none => sample_size
  | some k => min k sample_size

/-- Embeds `get_var_for_Q_N(q, n, sample_size, t_limit, analysis)`
(lines 100-117) at the granularity of loop iterations.  `draws i` is the
(partition or composition) sample produced in iteration `i` — the single
element `QN_parts[0]` — abstracting `parts.rand_partitions` /
`rand_compositions(q, n, 1, True)`.  `fires` is the oracle for the
iteration during which the SIGALRM raised by `time_limit(t_limit)` is
delivered.  POSIX `signal.alarm(0)` cancels any pending alarm, so with
`t_limit = 0` no timeout can ever fire and the loop always completes.
The `except TimeoutException` branch (lines 115-117) returns the
variances accumulated so far, so in every case the function returns the
variances of the completed iterations and raises nothing. -/
def get_var_for_Q_N (sample_size t_limit : ℕ) (fires : Option ℕ)
    (draws : ℕ → List ℤ) : List ℚ :=
  let effFires : Option ℕ := if t_limit = 0 then none else fires
  (List.range (completedIters sample_size effFires)).map
    (fun i => np_var_ddof1 (draws i))

/-- Outcome of the body run inside the `time_limit` context manager:
normal completion, the `TimeoutException` raised by the alarm handler,
or any other exception. -/
inductive BodyOutcome (α : Type) where
  | ok (val : α)
  | timeoutExn
  | otherExn
deriving DecidableEq

/-- Embeds `signal.alarm(seconds)` (lines 31 and 35) as a transition on
the process-wide alarm state: the timer is set to `seconds` (0 disarms),
whatever it held before. -/
def signal_alarm (seconds : ℕ) (_st : ℕ) : ℕ := seconds

/-- Embeds the `try: yield finally: signal.alarm(0)` of `time_limit`
(lines 32-35): whatever outcome the body produced — including the
timeout exception or any other exception — the `finally` clause
transforms the alarm state before the outcome propagates. -/
def tryFinallyAlarm {α : Type} (body : BodyOutcome α × ℕ) (f : ℕ → ℕ) :
    BodyOutcome α × ℕ :=
  (body.1, f body.2)

/-- Embeds the `time_limit(seconds)` context manager (lines 25-35): arm
the alarm to `seconds`, run the body against the armed state, and
finally disarm (`signal.alarm(0)`) before propagating the body's
outcome. -/
def time_limit {α : Type} (seconds : ℕ) (body : ℕ → BodyOutcome α × ℕ)
    (st : ℕ) : BodyOutcome α × ℕ :=
  tryFinallyAlarm (body (signal_alarm seconds st)) (signal_alarm 0)

/-- The `for record in data_study` loop of `sample_var` (lines 132-140):
collect per-record variance lists while each has full length, `break` at
the first short one.  Returns the accumulated `var_parts` (as
record/variances pairs) together with the list of records on which the
collector was actually invoked. -/
def sampleVarLoop {α : Type} (getVar : α → List ℚ) (sample_size : ℕ) :
    List α → List (α × List ℚ) × List α
  | [] => ([], [])
  | r :: rest =>
    let v := getVar r
    if v.length = sample_size then
      let p := sampleVarLoop getVar sample_size rest
      ((r, v) :: p.1, r :: p.2)
    else ([], [r])

/-- Embeds `sample_var(data, study, sample_size, t_limit, analysis)`
(lines 119-146).  `getVar r` abstracts the call
`get_var_for_Q_N(q, n, sample_size, t_limit, analysis)` for record `r`;
`data_study` is the study's record list (`data[data['study'] == study]`,
in file order).  The rows are written to the output file only when
`len(data_study) == len(var_parts)` (line 142); the emission is modelled
by `some rows` versus `none`.  The second component records which
records were ever passed to the collector. -/
def sample_var {α : Type} (getVar : α → List ℚ) (sample_size : ℕ)
    (data_study : List α) : Option (List (α × List ℚ)) × List α :=
  (if data_study.length = (sampleVarLoop getVar sample_size data_study).1.length
    then some (sampleVarLoop getVar sample_size data_study).1
    else none,
   (sampleVarLoop getVar sample_size data_study).2)

/-- One record of the `data_study` array used by `inclusion_criteria`:
the fields accessed are `N` and `Q` (the `mean`/`var` columns feed the
external regression, whose p-value is passed in separately). -/
structure QNRecord where
  Q : ℤ
  N : ℤ
deriving DecidableEq

/-- Embeds `inclusion_criteria(dat_study, sig)` (lines 404-411).  The
log-log regression of line 406 is the external statistics library; its
p-value is the explicit argument `pval` (0.05 is the exact rational
1/20).  Line 407 filters the records with `N >= N_MIN` and `Q >= Q_MIN`
(the boolean elementwise product is conjunction).  Python returns `True`
inside the nested `if`, `False` from the `else`, and falls off the end
of the function (returning `None`) when the count is large enough but
`sig` holds and the p-value is not below 0.05; `Option Bool` models the
three results. -/
def inclusion_criteria (pval : ℚ) (dat_study : List QNRecord)
    (sig : Bool) : Option Bool :=
  let filtered := dat_study.filter
    (fun r => decide (N_MIN ≤ r.N) && decide (Q_MIN ≤ r.Q))
  if n_MIN ≤ filtered.length then
    if !sig || decide (pval < 1 / 20) then some true else none
  else some false

end TL

namespace TL

theorem sum_zipWith_sub (l1 : List ℤ) :
    ∀ l2 : List ℤ, l1.length = l2.length →
      (List.zipWith (· - ·) l1 l2).sum = l1.sum - l2.sum := by
  induction l1 with
  | nil =>
    intro l2 h
    cases l2 with
    | nil => simp
    | cons b l2 => simp at h
  | cons a l1 ih =>
    intro l2 h
    cases l2 with
    | nil => simp at h
    | cons b l2 =>
      simp only [List.zipWith_cons_cons, List.sum_cons]
      rw [ih l2 (by simpa using h)]
      ring

theorem gaps_nonneg (hi : ℤ) :
    ∀ (s : List ℤ) (lo : ℤ), List.Sorted (· ≤ ·) s → lo ≤ hi →
      (∀ x ∈ s, lo ≤ x ∧ x ≤ hi) →
      ∀ p ∈ List.zipWith (· - ·) (s ++ [hi]) (lo :: s), 0 ≤ p := by
  intro s
  induction s with
  | nil =>
    intro lo _ hlohi _ p hp
    simp only [List.nil_append, List.zipWith_cons_cons, List.zipWith_nil_right,
      List.mem_singleton] at hp
    omega
  | cons x s ih =>
    intro lo hsort hlohi hbound p hp
    simp only [List.cons_append, List.zipWith_cons_cons] at hp
    rcases List.mem_cons.mp hp with rfl | hp2
    · have hx := (hbound x (by simp)).1
      omega
    · have hs := List.sorted_cons.mp hsort
      exact ih x hs.2 (hbound x (by simp)).2
        (fun y hy => ⟨hs.1 y hy, (hbound y (by simp [hy])).2⟩) p hp2

theorem length_RandomComposition_weak (q : ℕ) (rnd : List ℕ) :
    (RandomComposition_weak q rnd).length = rnd.length + 1 := by
  unfold RandomComposition_weak
  rw [List.length_zipWith, List.length_append, List.length_cons, List.length_map,
    List.length_insertionSort]
  simp

theorem sum_RandomComposition_weak (q : ℕ) (rnd : List ℕ) :
    (RandomComposition_weak q rnd).sum = (q : ℤ) := by
  unfold RandomComposition_weak
  rw [sum_zipWith_sub _ _ (by simp)]
  simp

theorem sorted_indices (rnd : List ℕ) :
    List.Sorted (· ≤ ·) ((rnd.insertionSort (· ≤ ·)).map (fun x : ℕ => (x : ℤ))) :=
  List.Pairwise.map _ (fun _ _ h => Nat.cast_le.mpr h)
    (List.sorted_insertionSort (· ≤ ·) rnd)

theorem nonneg_RandomComposition_weak (q : ℕ) (rnd : List ℕ)
    (hval : ∀ x ∈ rnd, x < q) :
    ∀ p ∈ RandomComposition_weak q rnd, 0 ≤ p := by
  intro p hp
  refine gaps_nonneg (q : ℤ) _ 0 (sorted_indices rnd) (Int.natCast_nonneg q) ?_ p hp
  intro x hx
  rcases List.mem_map.mp hx with ⟨y, hy, rfl⟩
  rw [List.mem_insertionSort] at hy
  exact ⟨Int.natCast_nonneg y, Nat.cast_le.mpr (Nat.le_of_lt (hval y hy))⟩

theorem succDiffs_eq_zipWith :
    ∀ (s : List ℤ) (lo hi : ℤ),
      succDiffs (lo :: (s ++ [hi])) = List.zipWith (· - ·) (s ++ [hi]) (lo :: s) := by
  intro s
  induction s with
  | nil => intro lo hi; simp [succDiffs]
  | cons x s ih =>
    intro lo hi
    simp only [List.cons_append, List.zipWith_cons_cons]
    show (x - lo) :: succDiffs (x :: (s ++ [hi])) = _
    rw [ih x hi]

theorem RandomComposition_weak_eq_gapsSpec (q : ℕ) (rnd : List ℕ) :
    RandomComposition_weak q rnd = gapsSpec q rnd := by
  unfold RandomComposition_weak gapsSpec
  rw [List.cons_append, succDiffs_eq_zipWith]

theorem rand_compositions_one_ok (q n : ℕ) (rnd : List ℕ)
    (hn : 1 ≤ n) (hlen : rnd.length = n - 1) :
    rand_compositions_one q n rnd =
      .ok (((RandomComposition_weak q rnd).insertionSort (· ≤ ·)).reverse) := by
  unfold rand_compositions_one
  rw [if_neg]
  push_neg
  refine ⟨?_, sum_RandomComposition_weak q rnd⟩
  rw [length_RandomComposition_weak, hlen]
  omega

theorem sort_desc_length (comp : List ℤ) :
    ((comp.insertionSort (· ≤ ·)).reverse).length = comp.length := by
  simp [List.length_insertionSort]

theorem sort_desc_sum (comp : List ℤ) :
    ((comp.insertionSort (· ≤ ·)).reverse).sum = comp.sum := by
  rw [List.sum_reverse]
  exact (List.perm_insertionSort _ comp).sum_eq

theorem sort_desc_mem (comp : List ℤ) (x : ℤ) :
    x ∈ (comp.insertionSort (· ≤ ·)).reverse ↔ x ∈ comp := by
  simp [List.mem_insertionSort]

theorem sort_desc_sorted (comp : List ℤ) :
    List.Sorted (· ≥ ·) ((comp.insertionSort (· ≤ ·)).reverse) := by
  rw [List.Sorted, List.pairwise_reverse]
  simpa [ge_iff_le] using List.sorted_insertionSort (· ≤ ·) comp

end TL

namespace TL

theorem rand_comp_loop_ok (q n : ℕ) (rnds : ℕ → List ℕ) (hn : 1 ≤ n)
    (hlen : ∀ i, (rnds i).length = n - 1)
    (hval : ∀ i, ∀ x ∈ rnds i, x < q) :
    ∀ k, ∃ comps, rand_comp_loop q n rnds k = .ok comps ∧
      ∀ c ∈ comps, c.length = n ∧ c.sum = (q : ℤ) ∧ (∀ x ∈ c, 0 ≤ x) ∧
        List.Sorted (· ≥ ·) c := by
  intro k
  induction k with
  | zero => exact ⟨[], rfl, by simp⟩
  | succ k ih =>
    obtain ⟨comps, hloop, hprops⟩ := ih
    refine ⟨comps ++ [((RandomComposition_weak q (rnds k)).insertionSort
      (· ≤ ·)).reverse], ?_, ?_⟩
    · rw [rand_comp_loop, hloop, rand_compositions_one_ok q n (rnds k) hn (hlen k)]
    · intro c hc
      rcases List.mem_append.mp hc with h | h
      · exact hprops c h
      · rw [List.mem_singleton] at h
        subst h
        refine ⟨?_, ?_, ?_, sort_desc_sorted _⟩
        · rw [sort_desc_length, length_RandomComposition_weak, hlen k]
          omega
        · rw [sort_desc_sum, sum_RandomComposition_weak]
        · intro x hx
          exact nonneg_RandomComposition_weak q (rnds k) (hval k) x
            ((sort_desc_mem _ x).mp hx)

/-- C1: for every valid input with `Q >= N >= 1` (and every faithful
random vector: `n - 1` draws from `{0, ..., q-1}` per iteration),
`rand_compositions` succeeds and every composition it returns is a
sequence of exactly `n` non-negative integers whose sum is exactly `q`,
sorted in descending order. -/
theorem rand_compositions_valid (q n sample_size : ℕ) (rnds : ℕ → List ℕ)
    (_hqn : n ≤ q) (hn : 1 ≤ n)
    (hlen : ∀ i, (rnds i).length = n - 1)
    (hval : ∀ i, ∀ x ∈ rnds i, x < q) :
    ∃ comps, rand_compositions q n sample_size rnds = .ok comps ∧
      ∀ c ∈ comps, c.length = n ∧ c.sum = (q : ℤ) ∧ (∀ x ∈ c, 0 ≤ x) ∧
        List.Sorted (· ≥ ·) c := by
  obtain ⟨comps, hloop, hprops⟩ :=
    rand_comp_loop_ok q n rnds hn hlen hval sample_size
  refine ⟨comps.dedup, ?_, ?_⟩
  · rw [rand_compositions, hloop]
    rfl
  · intro c hc
    exact hprops c (List.mem_dedup.mp hc)

/-- C1 witness: the theorem instantiated at q = 5, n = 3, sample size 2,
with both iterations drawing the cut points 1 and 3. -/
theorem rand_compositions_valid_witness :
    ∃ comps, rand_compositions 5 3 2 (fun _ => [1, 3]) = .ok comps ∧
      ∀ c ∈ comps, c.length = 3 ∧ c.sum = (5 : ℤ) ∧ (∀ x ∈ c, 0 ≤ x) ∧
        List.Sorted (· ≥ ·) c :=
  rand_compositions_valid 5 3 2 (fun _ => [1, 3]) (by omega) (by omega)
    (by intro i; rfl)
    (by intro i x hx; simp only [List.mem_cons, List.not_mem_nil, or_false] at hx
        rcases hx with rfl | rfl <;> omega)

/-- C7: under the precondition `Q >= 1` and `N >= 1` (with a faithful
random vector of length `n - 1`), the draw produced by
`RandomComposition_weak` always has length `n` and sum `q`, so the
internal-consistency branch of `rand_compositions` that would call
`sys.exit` is unreachable: the single-draw step always returns `.ok`. -/
theorem rand_compositions_one_never_aborts (q n : ℕ) (rnd : List ℕ)
    (_hq : 1 ≤ q) (hn : 1 ≤ n) (hlen : rnd.length = n - 1) :
    (RandomComposition_weak q rnd).length = n ∧
    (RandomComposition_weak q rnd).sum = (q : ℤ) ∧
    ∃ c, rand_compositions_one q n rnd = .ok c := by
  refine ⟨?_, sum_RandomComposition_weak q rnd, ?_⟩
  · rw [length_RandomComposition_weak, hlen]
    omega
  · exact ⟨_, rand_compositions_one_ok q n rnd hn hlen⟩

/-- C7 witness: the theorem instantiated at q = 4, n = 2 with the single
cut point 3. -/
theorem rand_compositions_one_never_aborts_witness :
    (RandomComposition_weak 4 [3]).length = 2 ∧
    (RandomComposition_weak 4 [3]).sum = (4 : ℤ) ∧
    ∃ c, rand_compositions_one 4 2 [3] = .ok c :=
  rand_compositions_one_never_aborts 4 2 [3] (by omega) (by omega) (by decide)

/-- C6 counterexample: the draw with the duplicated cut point 2 (q = 5,
n = 3) is NOT pairwise distinct, yet no rejection or resampling happens:
`RandomComposition_weak` forms the composition `[2, 0, 3]` from it (the
coincident cut points producing a zero part). -/
theorem RandomComposition_weak_duplicate_cex :
    ([2, 2] : List ℕ).Nodup = false ∧
    RandomComposition_weak 5 [2, 2] = [2, 0, 3] ∧
    (0 : ℤ) ∈ RandomComposition_weak 5 [2, 2] := by
  refine ⟨by decide, ?_, ?_⟩ <;> decide

/-- C6 amended: the `n - 1` cut points are drawn uniformly from
`{0, ..., q-1}` WITH replacement and are used as drawn — a draw that is
not pairwise distinct is never rejected or resampled.  For every such
draw the returned composition equals the successive gaps between the
consecutive sorted cut points (with 0 and q as virtual boundaries), and
it always has `n` non-negative parts summing to `q` (duplicated cut
points simply contribute parts equal to 0). -/
theorem RandomComposition_weak_gaps_no_rejection (q n : ℕ) (rnd : List ℕ)
    (hn : 1 ≤ n) (hlen : rnd.length = n - 1) (hval : ∀ x ∈ rnd, x < q) :
    RandomComposition_weak q rnd = gapsSpec q rnd ∧
    (RandomComposition_weak q rnd).length = n ∧
    (RandomComposition_weak q rnd).sum = (q : ℤ) ∧
    ∀ p ∈ RandomComposition_weak q rnd, 0 ≤ p := by
  refine ⟨RandomComposition_weak_eq_gapsSpec q rnd, ?_,
    sum_RandomComposition_weak q rnd, nonneg_RandomComposition_weak q rnd hval⟩
  rw [length_RandomComposition_weak, hlen]
  omega

/-- C6 amended witness: the theorem instantiated at the duplicated draw
[2, 2] with q = 5, n = 3. -/
theorem RandomComposition_weak_gaps_no_rejection_witness :
    RandomComposition_weak 5 [2, 2] = gapsSpec 5 [2, 2] ∧
    (RandomComposition_weak 5 [2, 2]).length = 3 ∧
    (RandomComposition_weak 5 [2, 2]).sum = (5 : ℤ) ∧
    ∀ p ∈ RandomComposition_weak 5 [2, 2], 0 ≤ p :=
  RandomComposition_weak_gaps_no_rejection 5 3 [2, 2] (by omega) (by decide)
    (by intro x hx; simp only [List.mem_cons, List.not_mem_nil, or_false] at hx
        rcases hx with rfl | rfl <;> omega)

/-- C3: whenever the time budget does not expire during the collection
loop (the SIGALRM oracle never fires), `get_var_for_Q_N` returns a list
of length exactly `sample_size`, one variance per draw. -/
theorem get_var_full_when_no_timeout (sample_size t_limit : ℕ)
    (fires : Option ℕ) (draws : ℕ → List ℤ) (h : fires = none) :
    (get_var_for_Q_N sample_size t_limit fires draws).length = sample_size := by
  subst h
  unfold get_var_for_Q_N
  simp [completedIters]

/-- C3 witness: three draws of [3, 3, 3] with a 10-second budget that
never expires give exactly 3 variances. -/
theorem get_var_full_when_no_timeout_witness :
    (get_var_for_Q_N 3 10 none (fun _ => [3, 3, 3])).length = 3 :=
  get_var_full_when_no_timeout 3 10 none (fun _ => [3, 3, 3]) rfl

/-- C4: when the time budget expires mid-collection (the alarm fires
during iteration `k < sample_size`, under an armed timer `t_limit ≠ 0`),
the call returns — it raises nothing, being a total function into lists —
exactly the variances collected before expiry: the length-`k` prefix of
what a run without timeout would produce, strictly shorter than
`sample_size`. -/
theorem get_var_timeout_returns_prefix (sample_size t_limit k : ℕ)
    (draws : ℕ → List ℤ) (ht : t_limit ≠ 0) (hk : k < sample_size) :
    get_var_for_Q_N sample_size t_limit (some k) draws =
      (get_var_for_Q_N sample_size t_limit none draws).take k ∧
    (get_var_for_Q_N sample_size t_limit (some k) draws).length = k ∧
    (get_var_for_Q_N sample_size t_limit (some k) draws).length < sample_size := by
  unfold get_var_for_Q_N
  rw [if_neg ht]
  refine ⟨?_, ?_, ?_⟩
  · rw [← List.map_take, List.take_range]
    simp [completedIters, Nat.min_comm]
  · simp [completedIters, Nat.le_of_lt hk]
  · simp only [completedIters, List.length_map, List.length_range]
    omega

/-- C4 witness: with sample size 3 and the alarm firing during iteration
1, exactly the one variance collected before expiry is returned. -/
theorem get_var_timeout_returns_prefix_witness :
    get_var_for_Q_N 3 10 (some 1) (fun _ => [3, 3, 3]) =
      (get_var_for_Q_N 3 10 none (fun _ => [3, 3, 3])).take 1 ∧
    (get_var_for_Q_N 3 10 (some 1) (fun _ => [3, 3, 3])).length = 1 ∧
    (get_var_for_Q_N 3 10 (some 1) (fun _ => [3, 3, 3])).length < 3 :=
  get_var_timeout_returns_prefix 3 10 1 (fun _ => [3, 3, 3]) (by omega) (by omega)

/-- C5 counterexample: calling the collector with a time limit of 0
seconds does NOT return a sequence of length 0 — `signal.alarm(0)`
cancels the alarm, so even under an oracle that would deliver the signal
at iteration 0, the loop runs to completion: with sample size 2 the
result is the two variances `[0, 0]`, of length 2, not 0. -/
theorem get_var_zero_tlimit_cex :
    get_var_for_Q_N 2 0 (some 0) (fun _ => [3, 3, 3]) = [0, 0] ∧
    (get_var_for_Q_N 2 0 (some 0) (fun _ => [3, 3, 3])).length ≠ 0 := by
  constructor
  · norm_num [get_var_for_Q_N, completedIters, List.range_succ, np_var_ddof1]
  · simp [get_var_for_Q_N, completedIters]

/-- C5 amended: with a time limit of 0 seconds the process alarm is
disarmed rather than armed, so the collector never times out: it returns
a sequence of length exactly `sample_size` (and never raises — the
embedding is a total function). -/
theorem get_var_zero_tlimit_runs_full (sample_size : ℕ) (fires : Option ℕ)
    (draws : ℕ → List ℤ) :
    (get_var_for_Q_N sample_size 0 fires draws).length = sample_size := by
  unfold get_var_for_Q_N
  simp [completedIters]

/-- C8: on every exit of the `time_limit` context — whatever the body's
outcome (normal completion, the timeout exception, or any other
exception) and whatever alarm state the body left behind — the
process-wide alarm is disarmed (state 0) before control returns, and the
body's outcome is propagated unchanged. -/
theorem time_limit_always_disarms {α : Type} (seconds : ℕ)
    (body : ℕ → BodyOutcome α × ℕ) (st : ℕ) :
    (time_limit seconds body st).2 = 0 ∧
    (time_limit seconds body st).1 = (body (signal_alarm seconds st)).1 := by
  constructor <;> rfl

/-- C9: the value recorded for iteration `i` by the collector is exactly
`np_var_ddof1` of the `i`-th draw — the sample variance with the `N - 1`
(unbiased, ddof = 1) divisor — and for a draw whose parts are all equal,
such as [3, 3, 3] (Q = 9, N = 3), that variance is exactly 0. -/
theorem get_var_appends_ddof1_variance (sample_size t_limit : ℕ)
    (fires : Option ℕ) (draws : ℕ → List ℤ) :
    (∀ (i : ℕ) (h : i < (get_var_for_Q_N sample_size t_limit fires draws).length),
      (get_var_for_Q_N sample_size t_limit fires draws).get ⟨i, h⟩ =
        np_var_ddof1 (draws i)) ∧
    np_var_ddof1 [3, 3, 3] = 0 := by
  constructor
  · intro i h
    unfold get_var_for_Q_N at h ⊢
    rw [List.get_eq_getElem, List.getElem_map, List.getElem_range]
  · norm_num [np_var_ddof1]

/-- C9 witness: the theorem applied to a single-iteration run drawing
[3, 3, 3], whose recorded variance is that of the draw, namely 0. -/
theorem get_var_appends_ddof1_variance_witness :
    (get_var_for_Q_N 1 5 none (fun _ => [3, 3, 3])).get
        ⟨0, get_var_full_when_no_timeout 1 5 none (fun _ => [3, 3, 3]) rfl ▸
          Nat.zero_lt_one⟩ =
      np_var_ddof1 [3, 3, 3] ∧
    np_var_ddof1 [3, 3, 3] = 0 :=
  ⟨(get_var_appends_ddof1_variance 1 5 none (fun _ => [3, 3, 3])).1 0 _,
    (get_var_appends_ddof1_variance 1 5 none (fun _ => [3, 3, 3])).2⟩

theorem sampleVarLoop_length_iff {α : Type} (getVar : α → List ℚ)
    (sample_size : ℕ) :
    ∀ l : List α, (sampleVarLoop getVar sample_size l).1.length = l.length ↔
      ∀ r ∈ l, (getVar r).length = sample_size := by
  intro l
  induction l with
  | nil => simp [sampleVarLoop]
  | cons r rest ih =>
    by_cases h : (getVar r).length = sample_size
    · simp only [sampleVarLoop, if_pos h, List.length_cons, Nat.add_right_cancel_iff,
        List.forall_mem_cons]
      rw [ih]
      simp [h]
    · simp only [sampleVarLoop, if_neg h, List.length_nil, List.length_cons,
        List.forall_mem_cons]
      constructor
      · intro habs
        omega
      · intro habs
        exact absurd habs.1 h

theorem sampleVarLoop_shortcircuit {α : Type} (getVar : α → List ℚ)
    (sample_size : ℕ) :
    ∀ (pre : List α) (bad : α) (post : List α),
      (∀ r ∈ pre, (getVar r).length = sample_size) →
      (getVar bad).length ≠ sample_size →
      sampleVarLoop getVar sample_size (pre ++ bad :: post) =
        (pre.map (fun r => (r, getVar r)), pre ++ [bad]) := by
  intro pre
  induction pre with
  | nil =>
    intro bad post _ hbad
    simp [sampleVarLoop, hbad]
  | cons r pre ih =>
    intro bad post hpre hbad
    have hr : (getVar r).length = sample_size := hpre r (by simp)
    have ih2 := ih bad post (fun s hs => hpre s (by simp [hs])) hbad
    simp only [List.cons_append, sampleVarLoop, if_pos hr, List.append_eq,
      List.map_cons]
    rw [ih2]

/-- C2: for every study, `sample_var` emits output rows (the `some`
case) iff every one of the study's records produced a variance list of
length exactly `sample_size`; and as soon as one record's list is
shorter, the collector is invoked on exactly the records up to and
including that one — no record after it in the study's original order is
ever sampled, and nothing is emitted. -/
theorem sample_var_all_or_nothing {α : Type} (getVar : α → List ℚ)
    (sample_size : ℕ) (data_study : List α) :
    ((sample_var getVar sample_size data_study).1.isSome = true ↔
      ∀ r ∈ data_study, (getVar r).length = sample_size) ∧
    (∀ (pre : List α) (bad : α) (post : List α),
      data_study = pre ++ bad :: post →
      (∀ r ∈ pre, (getVar r).length = sample_size) →
      (getVar bad).length ≠ sample_size →
      sample_var getVar sample_size data_study = (none, pre ++ [bad])) := by
  constructor
  · have hl := sampleVarLoop_length_iff getVar sample_size data_study
    unfold sample_var
    split_ifs with h
    · simpa using hl.mp h.symm
    · simp only [Option.isSome_none, Bool.false_eq_true, false_iff]
      intro hall
      exact h (hl.mpr hall).symm
  · intro pre bad post hsplit hpre hbad
    subst hsplit
    have hs := sampleVarLoop_shortcircuit getVar sample_size pre bad post hpre hbad
    unfold sample_var
    rw [hs]
    rw [if_neg (by
      intro hcontra
      simp only [List.length_append, List.length_cons, List.length_map] at hcontra
      omega)]

/-- A concrete per-record collector for the C2 witness: record 7 times
out (one variance instead of two), the others complete. -/
def c2GetVar : ℕ → List ℚ := fun r => if r = 7 then [1] else [1, 2]

/-- C2 witness: a study with records [5, 7, 9] where record 7 times out:
nothing is emitted and only records 5 and 7 are ever sampled. -/
theorem sample_var_all_or_nothing_witness :
    sample_var c2GetVar 2 [5, 7, 9] = (none, [5, 7]) :=
  (sample_var_all_or_nothing c2GetVar 2 [5, 7, 9]).2 [5] 7 [9] rfl
    (by intro r hr
        simp only [List.mem_singleton] at hr
        subst hr
        rfl)
    (by decide)

/-- C10: `inclusion_criteria` returns `True` exactly when at least 5
records survive the `N >= 3 and Q >= 5` filter and (`sig` is false or
the study's regression p-value is below 0.05); it returns the boolean
`False` exactly when the filtered count is below 5; and in the remaining
case (enough records, `sig` set, p-value not below 0.05) it falls
through and returns `None` — a falsy non-boolean — rather than `False`. -/
theorem inclusion_criteria_trichotomy (pval : ℚ) (dat_study : List QNRecord)
    (sig : Bool) :
    (inclusion_criteria pval dat_study sig = some true ↔
      5 ≤ (dat_study.filter fun r => decide (3 ≤ r.N ∧ 5 ≤ r.Q)).length ∧
        (sig = false ∨ pval < 1 / 20)) ∧
    (inclusion_criteria pval dat_study sig = some false ↔
      (dat_study.filter fun r => decide (3 ≤ r.N ∧ 5 ≤ r.Q)).length < 5) ∧
    (inclusion_criteria pval dat_study sig = none ↔
      5 ≤ (dat_study.filter fun r => decide (3 ≤ r.N ∧ 5 ≤ r.Q)).length ∧
        sig = true ∧ 1 / 20 ≤ pval) := by
  have hfilt : (dat_study.filter fun r => decide (3 ≤ r.N ∧ 5 ≤ r.Q)) =
      dat_study.filter fun r => decide (N_MIN ≤ r.N) && decide (Q_MIN ≤ r.Q) := by
    apply List.filter_congr
    intro r _
    simp [N_MIN, Q_MIN, Bool.and_comm]
  simp only [inclusion_criteria, n_MIN]
  rw [hfilt]
  set L := (dat_study.filter fun r =>
    decide (N_MIN ≤ r.N) && decide (Q_MIN ≤ r.Q)).length with hLdef
  cases sig <;> rcases le_or_lt (1 / 20 : ℚ) pval with hp | hp <;>
    by_cases hL : 5 ≤ L <;>
    first
    | (simp [hp, hL, not_lt.mpr hp] <;> omega)
    | (simp [hp, hL, not_le.mpr hp] <;> omega)
